import Mathlib

/-!
Shallow embedding of the dailycoin token contract (src/dailycoin.cpp,
src/dailycoin.hpp) and proofs about its claim-and-decay engine.

Modelling conventions:
* `eosio::name` values are modelled as natural numbers.
* The contract is hard-coded to a single symbol (XDL, precision 4,
  `PRECISION_MULTIPLIER = 10000`), so symbols are dropped: the state holds
  the one `currency_stats` row, the per-owner `accounts` rows for that
  symbol (an association list keyed by owner name, first match wins, as in
  the `multi_index` tables), and the per-owner `shares` tables.
* `int64_t` amounts are modelled as unbounded `Int` (the contract's
  amounts stay far below 2^63 on the inputs the claims quantify over) and
  `time_type` (`uint32_t` day counts) as `Nat`.
* An EOSIO `check(false, ...)` aborts the whole transaction, discarding
  every table modification made so far.  Each action is therefore a
  function `... → Except Err TokenState`: `Except.ok s` is the committed
  post state, `Except.error e` is an abort in which *no* modification
  survives.
* The demurrage amount is computed in the source with IEEE-754 doubles
  (`pow(0.999, ni_days/365.0) * balance`, truncated to `int64_t`).  Bit
  level floating point does not translate to this embedding, so the engine
  takes the truncated result as an oracle parameter
  `dv : Int → Nat → Int` (balance and elapsed days to decayed balance);
  theorems that need it assume only `DecayOK dv`, i.e.
  `0 ≤ dv b d ≤ b` for `0 ≤ b`, which the floating computation satisfies.
-/

namespace Dailycoin

/-- An `eosio::name`, modelled as a natural number. -/
abbrev Name : Type := Nat

/-- The `account` table row: `balance` (asset amount at the fixed 4-decimal
scale) and `last_claim_day`. -/
structure Account where
  balance : Int
  last_claim_day : Nat
  deriving Repr, DecidableEq

/-- The `currency_stats` table row. -/
structure CurrencyStats where
  supply : Int
  max_supply : Int
  issuer : Name
  burned : Int
  claims : Nat
  deriving Repr, DecidableEq

/-- A per-owner `shares` table: list of `(to, percent)` rows in table
iteration order (the `multi_index` orders rows by `to`). -/
abbrev ShareTable : Type := List (Name × Nat)

/-- The whole contract state for the single supported symbol. -/
structure TokenState where
  accounts : List (Name × Account)
  stats : CurrencyStats
  shares : List (Name × ShareTable)
  deriving Repr, DecidableEq

/-- Abort reasons, one per distinct `check(...)` message reachable in the
modelled actions. -/
inductive Err where
  | noBalanceRecord
  | nothingDue
  | noCoins
  | overdrawn
  | invalidQuantity
  | selfTransfer
  | quantityExceedsSupply
  | invalidPercent
  | selfShare
  | shareTotalExceeded
  | balanceNotZero
  | claimedToday
  deriving Repr, DecidableEq

/-- `PRECISION_MULTIPLIER` from dailycoin.hpp (10^SYMBOL_PRECISION). -/
def PRECISION_MULTIPLIER : Int := 10000

/-- `max_past_claim_days` from dailycoin.hpp. -/
def max_past_claim_days : Int := 360

/-- `accounts.find`/`get`: first row whose key matches. -/
def getAcct : List (Name × Account) → Name → Option Account
  | [], _ => none
  | (m, a) :: rest, n => if m = n then some a else getAcct rest n

/-- `accounts.modify` on the first matching row. -/
def updAcct : List (Name × Account) → Name → (Account → Account) → List (Name × Account)
  | [], _, _ => []
  | (m, a) :: rest, n, f => if m = n then (m, f a) :: rest else (m, a) :: updAcct rest n f

/-- `accounts.erase` of the first matching row. -/
def eraseAcct : List (Name × Account) → Name → List (Name × Account)
  | [], _ => []
  | (m, a) :: rest, n => if m = n then rest else (m, a) :: eraseAcct rest n

/-- `token::add_balance`: creates a zero-`last_claim_day` row holding
`value` when the owner has none, otherwise adds `value` to the row. -/
def add_balance (accts : List (Name × Account)) (owner : Name) (value : Int) :
    List (Name × Account) :=
  match getAcct accts owner with
  | none => accts ++ [(owner, ⟨value, 0⟩)]
  | some _ => updAcct accts owner (fun a => { a with balance := a.balance + value })

/-- `token::sub_balance`: fails when the owner has no row
(`no balance object found`) or when the balance is overdrawn. -/
def sub_balance (accts : List (Name × Account)) (owner : Name) (value : Int) :
    Except Err (List (Name × Account)) :=
  match getAcct accts owner with
  | none => Except.error Err.noBalanceRecord
  | some a =>
    if a.balance < value then Except.error Err.overdrawn
    else Except.ok (updAcct accts owner (fun b => { b with balance := b.balance - value }))

/-- Sum of all stored balances. -/
def totalBal (accts : List (Name × Account)) : Int :=
  (accts.map (fun p => p.2.balance)).sum

/-- Per-owner lookup in the `shares` scope table (absent owner = empty
table). -/
def getShares : List (Name × ShareTable) → Name → ShareTable
  | [], _ => []
  | (m, t) :: rest, n => if m = n then t else getShares rest n

/-- Store an owner's whole share table. -/
def setShareTable : List (Name × ShareTable) → Name → ShareTable → List (Name × ShareTable)
  | [], n, t => [(n, t)]
  | (m, u) :: rest, n, t => if m = n then (m, t) :: rest else (m, u) :: setShareTable rest n t

/-- The share-distribution loop of `try_ubi_claim` (dailycoin.cpp lines
668-699): walk the owner's share rows while funds remain; a row that takes
the running percent sum `pcsum` to 100 or more absorbs everything still
available, otherwise it gets `total * percent / 100` (truncating division
against the original total).  Returns the `(to, portion)` list and the
final `share_available`. -/
def distribute_portions (total : Int) :
    ShareTable → Int → Nat → List (Name × Int) × Int
  | [], share_available, _ => ([], share_available)
  | (dst, pc) :: rest, share_available, pcsum0 =>
    if 0 < share_available then
      let pcsum1 := pcsum0 + pc
      let shareamt : Int :=
        if 100 ≤ pcsum1 then share_available else total * (pc : Int) / 100
      let r := distribute_portions total rest (share_available - shareamt) pcsum1
      ((dst, shareamt) :: r.1, r.2)
    else ([], share_available)

/-- Credit a list of portions with `add_balance`, left to right. -/
def creditAll (accts : List (Name × Account)) (ports : List (Name × Int)) :
    List (Name × Account) :=
  ports.foldl (fun ac p => add_balance ac p.1 p.2) accts

/-- The owner residue the engine credits back after the distribution loop
(dailycoin.cpp lines 703-706): the leftover, if positive. -/
def ownerResidue (share_available : Int) : Int :=
  if 0 < share_available then share_available else 0

/-- `ni_days` (dailycoin.cpp lines 543-546): elapsed days charged by the
demurrage, defaulting to 1 for a never-settled account. -/
def ni_days (today lcd : Nat) : Nat :=
  if 0 < lcd then today - lcd else 1

/-- The demurrage charge on a balance: `balance - (int64_t)(pow(0.999,
ni_days/365.0) * balance)`, with the truncated floating product supplied
by the oracle `dv`. -/
def burnAmt (dv : Int → Nat → Int) (acct : Account) (today : Nat) : Int :=
  acct.balance - dv acct.balance (ni_days today acct.last_claim_day)

/-- What the floating decay actually guarantees: the truncated product of a
nonnegative balance with `pow(0.999, _) ≤ 1.0` lies between 0 and the
balance. -/
def DecayOK (dv : Int → Nat → Int) : Prop :=
  ∀ b d, 0 ≤ b → 0 ≤ dv b d ∧ dv b d ≤ b

/-- The state after the unconditional demurrage step of `try_ubi_claim`
(dailycoin.cpp lines 543-572): the owner's balance drops by the burn, the
`last_claim_day` moves to `today`, `supply` drops and `burned` grows by
the burn. -/
def decayedState (dv : Int → Nat → Int) (today : Nat) (n : Name) (acct : Account)
    (s : TokenState) : TokenState :=
  { s with
    accounts := updAcct s.accounts n
      (fun a => ⟨a.balance - burnAmt dv acct today, today⟩),
    stats := { s.stats with
      supply := s.stats.supply - burnAmt dv acct today,
      burned := s.stats.burned + burnAmt dv acct today } }

/-- The accrual sizing of `try_ubi_claim` (dailycoin.cpp lines 596-626):
effective previous day (`lcd = 0` means yesterday), days of claimable past
income capped at `max_past_claim_days` with the excess lost, plus one for
today's pay; returns `(claim amount at the 4-decimal scale, lost days)`. -/
def ubi_accrual (today curr_lcd : Nat) : Int × Int :=
  let lcd2 : Nat := if curr_lcd = 0 then today - 1 else curr_lcd
  let claim0 : Int := (today : Int) - (lcd2 : Int) - 1
  let lost : Int := if max_past_claim_days < claim0 then claim0 - max_past_claim_days else 0
  let claim1 : Int := if max_past_claim_days < claim0 then max_past_claim_days else claim0
  ((claim1 + 1) * PRECISION_MULTIPLIER, lost)

/-- The supply-cap clamp of `try_ubi_claim` (dailycoin.cpp lines 628-631):
the claim amount may not exceed `max_supply - supply` (taken after the
demurrage update). -/
def clampedClaim (today : Nat) (acct : Account) (stats1 : CurrencyStats) : Int :=
  let amt := (ubi_accrual today acct.last_claim_day).1
  let available := stats1.max_supply - stats1.supply
  if available < amt then available else amt

/-- The state after a paying claim (dailycoin.cpp lines 641-706): supply
grows by the clamped claim, the claims counter ticks, the claim is spread
over the owner's share rows and any leftover is credited back to the
owner. -/
def paidState (dv : Int → Nat → Int) (today : Nat) (n : Name) (acct : Account)
    (s : TokenState) : TokenState :=
  let s1 := decayedState dv today n acct s
  let ca := clampedClaim today acct s1.stats
  let pr := distribute_portions ca (getShares s.shares n) ca 0
  let accounts2 := creditAll s1.accounts pr.1
  { s1 with
    accounts := if 0 < pr.2 then add_balance accounts2 n pr.2 else accounts2,
    stats := { s1.stats with
      supply := s1.stats.supply + ca,
      claims := s1.stats.claims + 1 } }

/-- `token::try_ubi_claim` (dailycoin.cpp lines 519-716). -/
def try_ubi_claim (dv : Int → Nat → Int) (today : Nat) (n : Name)
    (s : TokenState) (fl : Bool) : Except Err TokenState :=
  match getAcct s.accounts n with
  | none => Except.error Err.noBalanceRecord
  | some acct =>
    if today ≤ acct.last_claim_day then
      if fl then Except.error Err.nothingDue else Except.ok s
    else if clampedClaim today acct (decayedState dv today n acct s).stats ≤ 0 then
      if fl then Except.error Err.noCoins else Except.ok (decayedState dv today n acct s)
    else Except.ok (paidState dv today n acct s)

/-- `token::transfer` (dailycoin.cpp lines 92-128): both parties are
settled through the claim engine before the funds move.  Authorization,
symbol and memo checks that the model drops cannot alter balances. -/
def transfer (dv : Int → Nat → Int) (today : Nat) (fromN toN : Name)
    (quantity : Int) (s : TokenState) : Except Err TokenState :=
  if fromN = toN then Except.error Err.selfTransfer
  else if quantity ≤ 0 then Except.error Err.invalidQuantity
  else
    match try_ubi_claim dv today fromN s false with
    | Except.error e => Except.error e
    | Except.ok s1 =>
      match try_ubi_claim dv today toN s1 false with
      | Except.error e => Except.error e
      | Except.ok s2 =>
        match sub_balance s2.accounts fromN quantity with
        | Except.error e => Except.error e
        | Except.ok a3 => Except.ok { s2 with accounts := add_balance a3 toN quantity }

/-- `token::issue` (dailycoin.cpp lines 34-63): mints to the issuer's
balance after the available-supply check; no settlement is run.  The
inline self-transfer sent when `to` differs from the issuer is a separate
`transfer` action and is modelled as a separate step. -/
def issue (quantity : Int) (s : TokenState) : Except Err TokenState :=
  if quantity ≤ 0 then Except.error Err.invalidQuantity
  else if s.stats.max_supply - s.stats.supply < quantity then
    Except.error Err.quantityExceedsSupply
  else Except.ok { s with
    stats := { s.stats with supply := s.stats.supply + quantity },
    accounts := add_balance s.accounts s.stats.issuer quantity }

/-- `token::retire` (dailycoin.cpp lines 65-90): burns from the issuer's
balance; no settlement is run. -/
def retire (quantity : Int) (s : TokenState) : Except Err TokenState :=
  if quantity ≤ 0 then Except.error Err.invalidQuantity
  else
    match sub_balance s.accounts s.stats.issuer quantity with
    | Except.error e => Except.error e
    | Except.ok accts => Except.ok { s with
        stats := { s.stats with
          supply := s.stats.supply - quantity,
          burned := s.stats.burned + quantity },
        accounts := accts }

/-- `token::burn` (dailycoin.cpp lines 192-212): burns from the owner's
balance; no settlement is run. -/
def burn (owner : Name) (quantity : Int) (s : TokenState) : Except Err TokenState :=
  if quantity ≤ 0 then Except.error Err.invalidQuantity
  else
    match sub_balance s.accounts owner quantity with
    | Except.error e => Except.error e
    | Except.ok accts => Except.ok { s with
        stats := { s.stats with
          supply := s.stats.supply - quantity,
          burned := s.stats.burned + quantity },
        accounts := accts }

/-- `token::open` (dailycoin.cpp lines 130-147): create a zero row with
`last_claim_day = 0` when none exists. -/
def openAccount (owner : Name) (s : TokenState) : TokenState :=
  match getAcct s.accounts owner with
  | some _ => s
  | none => { s with accounts := s.accounts ++ [(owner, ⟨0, 0⟩)] }

/-- `token::close` (dailycoin.cpp lines 149-170): erase the row, allowed
only at zero balance and when income was not already claimed today. -/
def close (today : Nat) (owner : Name) (s : TokenState) : Except Err TokenState :=
  match getAcct s.accounts owner with
  | none => Except.error Err.noBalanceRecord
  | some a =>
    if a.balance ≠ 0 then Except.error Err.balanceNotZero
    else if today ≤ a.last_claim_day then Except.error Err.claimedToday
    else Except.ok { s with accounts := eraseAcct s.accounts owner }

/-- `token::claimfor` (dailycoin.cpp lines 177-190): open a row if needed,
then run the engine demanding a result (`fail = true`).  `token::claim`
is `claimfor owner owner` (line 172), identical in this model. -/
def claimfor (dv : Int → Nat → Int) (today : Nat) (owner : Name)
    (s : TokenState) : Except Err TokenState :=
  try_ubi_claim dv today owner (openAccount owner s) true

/-- Share-table lookup (`shares.find`). -/
def lookupShare : ShareTable → Name → Option Nat
  | [], _ => none
  | (m, p) :: rest, n => if m = n then some p else lookupShare rest n

/-- Share-row modify on the first matching row. -/
def updShare : ShareTable → Name → Nat → ShareTable
  | [], _, _ => []
  | (m, q) :: rest, n, p => if m = n then (m, p) :: rest else (m, q) :: updShare rest n p

/-- Share-row erase of the first matching row. -/
def eraseShare : ShareTable → Name → ShareTable
  | [], _ => []
  | (m, q) :: rest, n => if m = n then rest else (m, q) :: eraseShare rest n

/-- Running percent sum over a share table (dailycoin.cpp lines 247-252). -/
def pcsum (tbl : ShareTable) : Nat :=
  (tbl.map (fun p => p.2)).sum

/-- The row insert/modify/erase step of `token::setshare` (dailycoin.cpp
lines 227-244): a positive percent is stored (insert or modify), percent 0
erases an existing row and inserts nothing. -/
def setshare_upsert (dst : Name) (percent : Int) (tbl : ShareTable) : ShareTable :=
  match lookupShare tbl dst with
  | none => if 0 < percent then tbl ++ [(dst, percent.toNat)] else tbl
  | some _ => if 0 < percent then updShare tbl dst percent.toNat else eraseShare tbl dst

/-- `token::setshare` (dailycoin.cpp lines 219-254) acting on one owner's
share table: validate the percent, apply the row upsert, then reject the
whole action when the resulting percent sum exceeds 100. -/
def setshare (owner dst : Name) (percent : Int) (tbl : ShareTable) :
    Except Err ShareTable :=
  if percent < 0 ∨ 100 < percent then Except.error Err.invalidPercent
  else if owner = dst then Except.error Err.selfShare
  else if pcsum (setshare_upsert dst percent tbl) ≤ 100 then
    Except.ok (setshare_upsert dst percent tbl)
  else Except.error Err.shareTotalExceeded

/-- `token::setshare` at the state level. -/
def setshareS (owner dst : Name) (percent : Int) (s : TokenState) :
    Except Err TokenState :=
  match setshare owner dst percent (getShares s.shares owner) with
  | Except.error e => Except.error e
  | Except.ok tbl1 => Except.ok { s with shares := setShareTable s.shares owner tbl1 }

/-- `token::resetshare` (dailycoin.cpp lines 256-264). -/
def resetshareS (owner : Name) (s : TokenState) : TokenState :=
  { s with shares := setShareTable s.shares owner [] }

/-- `token::create` (dailycoin.cpp lines 10-32): the fresh statistics row
for a new symbol with positive `max_supply`. -/
def createState (issuer : Name) (maximum_supply : Int) : TokenState :=
  { accounts := [], stats := ⟨0, maximum_supply, issuer, 0, 0⟩, shares := [] }

/-- One committed contract action (any authorization, any day). -/
inductive Step (dv : Int → Nat → Int) : TokenState → TokenState → Prop where
  | issue : ∀ q s s', issue q s = Except.ok s' → Step dv s s'
  | retire : ∀ q s s', retire q s = Except.ok s' → Step dv s s'
  | burn : ∀ o q s s', burn o q s = Except.ok s' → Step dv s s'
  | transfer : ∀ today f t q s s',
      transfer dv today f t q s = Except.ok s' → Step dv s s'
  | claimfor : ∀ today o s s', claimfor dv today o s = Except.ok s' → Step dv s s'
  | openA : ∀ o s, Step dv s (openAccount o s)
  | close : ∀ today o s s', close today o s = Except.ok s' → Step dv s s'
  | setshare : ∀ o t p s s', setshareS o t p s = Except.ok s' → Step dv s s'
  | resetshare : ∀ o s, Step dv s (resetshareS o s)

/-- States reachable from `create` by committed actions. -/
inductive Reachable (dv : Int → Nat → Int) : TokenState → Prop where
  | init : ∀ issuer max_supply, 0 < max_supply →
      Reachable dv (createState issuer max_supply)
  | step : ∀ s s', Reachable dv s → Step dv s s' → Reachable dv s'

/-- All stored balances are nonnegative. -/
def NonnegBal (accts : List (Name × Account)) : Prop :=
  ∀ p ∈ accts, 0 ≤ p.2.balance

/-- The ledger invariant: nonnegative balances, supply equal to the sum of
balances, supply within the ceiling. -/
def Inv (s : TokenState) : Prop :=
  NonnegBal s.accounts ∧ totalBal s.accounts = s.stats.supply ∧
    s.stats.supply ≤ s.stats.max_supply

/-- Every account row present before an action is still present after it
with an unchanged `last_claim_day` — the signature of an action that never
runs the claim engine (a due settlement would move the day to `today`). -/
def preservesLcd (s s' : TokenState) : Prop :=
  ∀ m a, getAcct s.accounts m = some a →
    ∃ b, getAcct s'.accounts m = some b ∧ b.last_claim_day = a.last_claim_day

theorem totalBal_nil : totalBal [] = 0 := rfl

theorem totalBal_cons (m : Name) (a : Account) (rest : List (Name × Account)) :
    totalBal ((m, a) :: rest) = a.balance + totalBal rest := by
  simp [totalBal]

theorem totalBal_append (l1 l2 : List (Name × Account)) :
    totalBal (l1 ++ l2) = totalBal l1 + totalBal l2 := by
  simp [totalBal]

theorem getAcct_mem {accts : List (Name × Account)} {n : Name} {a : Account}
    (h : getAcct accts n = some a) : (n, a) ∈ accts := by
  induction accts with
  | nil => simp [getAcct] at h
  | cons p rest ih =>
    obtain ⟨m, b⟩ := p
    by_cases hm : m = n
    · subst hm
      simp [getAcct] at h
      simp [h]
    · simp [getAcct, hm] at h
      exact List.mem_cons_of_mem _ (ih h)

theorem totalBal_nonneg {accts : List (Name × Account)} (h : NonnegBal accts) :
    0 ≤ totalBal accts := by
  induction accts with
  | nil => simp [totalBal]
  | cons p rest ih =>
    obtain ⟨m, a⟩ := p
    rw [totalBal_cons]
    have h1 : 0 ≤ a.balance := h (m, a) (List.mem_cons_self _ _)
    have h2 : NonnegBal rest := fun q hq => h q (List.mem_cons_of_mem _ hq)
    exact add_nonneg h1 (ih h2)

theorem balance_le_totalBal {accts : List (Name × Account)} {n : Name} {a : Account}
    (h : getAcct accts n = some a) (hn : NonnegBal accts) :
    a.balance ≤ totalBal accts := by
  induction accts with
  | nil => simp [getAcct] at h
  | cons p rest ih =>
    obtain ⟨m, b⟩ := p
    rw [totalBal_cons]
    have hrest : NonnegBal rest := fun q hq => hn q (List.mem_cons_of_mem _ hq)
    by_cases hm : m = n
    · simp [getAcct, hm] at h
      subst h
      have := totalBal_nonneg hrest
      omega
    · simp [getAcct, hm] at h
      have hb : 0 ≤ b.balance := hn (m, b) (List.mem_cons_self _ _)
      have := ih h hrest
      omega

theorem totalBal_updAcct {accts : List (Name × Account)} {n : Name} {a : Account}
    (f : Account → Account) (h : getAcct accts n = some a) :
    totalBal (updAcct accts n f) = totalBal accts - a.balance + (f a).balance := by
  induction accts with
  | nil => simp [getAcct] at h
  | cons p rest ih =>
    obtain ⟨m, b⟩ := p
    by_cases hm : m = n
    · simp [getAcct, hm] at h
      subst h
      simp [updAcct, hm, totalBal_cons]
      ring
    · simp [getAcct, hm] at h
      simp [updAcct, hm, totalBal_cons, ih h]
      ring

theorem getAcct_updAcct_self {accts : List (Name × Account)} {n : Name} {a : Account}
    (f : Account → Account) (h : getAcct accts n = some a) :
    getAcct (updAcct accts n f) n = some (f a) := by
  induction accts with
  | nil => simp [getAcct] at h
  | cons p rest ih =>
    obtain ⟨m, b⟩ := p
    by_cases hm : m = n
    · simp [getAcct, hm] at h
      subst h
      simp [updAcct, hm, getAcct]
    · simp [getAcct, hm] at h
      simp [updAcct, hm, getAcct, ih h]

theorem getAcct_updAcct_ne {accts : List (Name × Account)} {n m : Name}
    (f : Account → Account) (h : m ≠ n) :
    getAcct (updAcct accts n f) m = getAcct accts m := by
  induction accts with
  | nil => simp [updAcct]
  | cons p rest ih =>
    obtain ⟨k, b⟩ := p
    by_cases hk : k = n
    · subst hk
      have : k ≠ m := fun hc => h (hc ▸ rfl)
      simp [updAcct, getAcct, this]
    · by_cases hkm : k = m
      · subst hkm
        simp [updAcct, hk, getAcct]
      · simp [updAcct, hk, getAcct, hkm, ih]

theorem nonneg_updAcct {accts : List (Name × Account)} {n : Name} {a : Account}
    {f : Account → Account} (h : getAcct accts n = some a) (hn : NonnegBal accts)
    (hf : 0 ≤ (f a).balance) : NonnegBal (updAcct accts n f) := by
  induction accts with
  | nil => simp [getAcct] at h
  | cons p rest ih =>
    obtain ⟨m, b⟩ := p
    have hrest : NonnegBal rest := fun q hq => hn q (List.mem_cons_of_mem _ hq)
    by_cases hm : m = n
    · simp [getAcct, hm] at h
      subst h
      intro q hq
      simp [updAcct, hm] at hq
      rcases hq with hq | hq
      · subst hq; exact hf
      · exact hrest q hq
    · simp [getAcct, hm] at h
      intro q hq
      simp only [updAcct, if_neg hm] at hq
      rcases List.mem_cons.mp hq with hq | hq
      · subst hq; exact hn (m, b) (List.mem_cons_self _ _)
      · exact ih h hrest q hq

theorem lcd_updAcct {accts : List (Name × Account)} {n m : Name} {a : Account}
    {f : Account → Account} (h : getAcct accts m = some a)
    (hf : ∀ x, (f x).last_claim_day = x.last_claim_day) :
    ∃ b, getAcct (updAcct accts n f) m = some b ∧
      b.last_claim_day = a.last_claim_day := by
  by_cases hm : m = n
  · subst hm
    exact ⟨f a, getAcct_updAcct_self f h, hf a⟩
  · exact ⟨a, by rw [getAcct_updAcct_ne f hm]; exact h, rfl⟩

theorem getAcct_append_ne {accts : List (Name × Account)} {n m : Name} {x : Account}
    (h : m ≠ n) : getAcct (accts ++ [(n, x)]) m = getAcct accts m := by
  induction accts with
  | nil =>
    have hnm : n ≠ m := fun hc => h hc.symm
    simp [getAcct, hnm]
  | cons p rest ih =>
    obtain ⟨k, b⟩ := p
    by_cases hk : k = m
    · simp [getAcct, hk]
    · simp [getAcct, hk, ih]

theorem totalBal_add_balance (accts : List (Name × Account)) (n : Name) (v : Int) :
    totalBal (add_balance accts n v) = totalBal accts + v := by
  unfold add_balance
  cases h : getAcct accts n with
  | none => simp [totalBal_append, totalBal_cons, totalBal_nil]
  | some a => rw [totalBal_updAcct _ h]; simp; ring

theorem nonneg_add_balance {accts : List (Name × Account)} {n : Name} {v : Int}
    (hn : NonnegBal accts) (hv : 0 ≤ v) : NonnegBal (add_balance accts n v) := by
  unfold add_balance
  cases h : getAcct accts n with
  | none =>
    intro q hq
    rcases List.mem_append.mp hq with hq | hq
    · exact hn q hq
    · simp at hq
      subst hq
      exact hv
  | some a =>
    have ha : 0 ≤ a.balance := hn (n, a) (getAcct_mem h)
    exact nonneg_updAcct h hn (by simp; omega)

theorem getAcct_add_balance_ne {accts : List (Name × Account)} {n m : Name} (v : Int)
    (h : m ≠ n) : getAcct (add_balance accts n v) m = getAcct accts m := by
  unfold add_balance
  cases hg : getAcct accts n with
  | none => exact getAcct_append_ne h
  | some a => exact getAcct_updAcct_ne _ h

theorem lcd_add_balance {accts : List (Name × Account)} {m : Name} {a : Account}
    (n : Name) (v : Int) (h : getAcct accts m = some a) :
    ∃ b, getAcct (add_balance accts n v) m = some b ∧
      b.last_claim_day = a.last_claim_day := by
  unfold add_balance
  cases hg : getAcct accts n with
  | none =>
    refine ⟨a, ?_, rfl⟩
    have hm : m ≠ n := by
      intro hc
      subst hc
      rw [h] at hg
      exact Option.noConfusion hg
    rw [getAcct_append_ne hm]
    exact h
  | some b => exact lcd_updAcct h (fun x => rfl)

theorem totalBal_creditAll (ports : List (Name × Int)) (accts : List (Name × Account)) :
    totalBal (creditAll accts ports) = totalBal accts + (ports.map (fun p => p.2)).sum := by
  induction ports generalizing accts with
  | nil => simp [creditAll]
  | cons p rest ih =>
    obtain ⟨m, v⟩ := p
    simp only [creditAll, List.foldl_cons] at *
    rw [ih, totalBal_add_balance]
    simp
    ring

theorem nonneg_creditAll {ports : List (Name × Int)} {accts : List (Name × Account)}
    (hn : NonnegBal accts) (hp : ∀ p ∈ ports, 0 ≤ p.2) :
    NonnegBal (creditAll accts ports) := by
  induction ports generalizing accts with
  | nil => exact hn
  | cons p rest ih =>
    obtain ⟨m, v⟩ := p
    simp only [creditAll, List.foldl_cons] at *
    exact ih (nonneg_add_balance hn (hp (m, v) (List.mem_cons_self _ _)))
      (fun q hq => hp q (List.mem_cons_of_mem _ hq))

theorem lcd_creditAll {ports : List (Name × Int)} {accts : List (Name × Account)}
    {m : Name} {a : Account} (h : getAcct accts m = some a) :
    ∃ b, getAcct (creditAll accts ports) m = some b ∧
      b.last_claim_day = a.last_claim_day := by
  induction ports generalizing accts a with
  | nil => exact ⟨a, h, rfl⟩
  | cons p rest ih =>
    obtain ⟨k, v⟩ := p
    simp only [creditAll, List.foldl_cons] at *
    obtain ⟨b, hb, hlcd⟩ := lcd_add_balance k v h
    obtain ⟨c, hc, hlcd2⟩ := ih hb
    exact ⟨c, hc, by rw [hlcd2, hlcd]⟩

theorem absent_creditAll {ports : List (Name × Int)} {accts : List (Name × Account)}
    {t : Name} (h : getAcct accts t = none) (hp : ∀ p ∈ ports, p.1 ≠ t) :
    getAcct (creditAll accts ports) t = none := by
  induction ports generalizing accts with
  | nil => exact h
  | cons p rest ih =>
    obtain ⟨k, v⟩ := p
    simp only [creditAll, List.foldl_cons] at *
    have hk : t ≠ k := fun hc => hp (k, v) (List.mem_cons_self _ _) hc.symm
    exact ih (by rw [getAcct_add_balance_ne v hk]; exact h)
      (fun q hq => hp q (List.mem_cons_of_mem _ hq))

theorem ediv_add_ediv_le (a b c : Int) (hc : 0 < c) : a / c + b / c ≤ (a + b) / c := by
  rw [Int.le_ediv_iff_mul_le hc, add_mul]
  exact add_le_add (Int.ediv_mul_le a (ne_of_gt hc)) (Int.ediv_mul_le b (ne_of_gt hc))

theorem distribute_sum (total : Int) (tbl : ShareTable) (avail : Int) (ps : Nat) :
    ((distribute_portions total tbl avail ps).1.map (fun p => p.2)).sum
      + (distribute_portions total tbl avail ps).2 = avail := by
  induction tbl generalizing avail ps with
  | nil => simp [distribute_portions]
  | cons q rest ih =>
    obtain ⟨d, pc⟩ := q
    by_cases hav : 0 < avail
    · simp only [distribute_portions, if_pos hav]
      by_cases hpc : 100 ≤ ps + pc
      · simp only [if_pos hpc, List.map_cons, List.sum_cons]
        have := ih (avail - avail) (ps + pc)
        omega
      · simp only [if_neg hpc, List.map_cons, List.sum_cons]
        have := ih (avail - total * (pc : Int) / 100) (ps + pc)
        omega
    · simp [distribute_portions, if_neg hav]

theorem distribute_nonneg (total : Int) (tbl : ShareTable) (avail : Int) (ps : Nat)
    (htotal : 0 ≤ total) (hav : 0 ≤ avail)
    (hinv : ps < 100 → total - total * (ps : Int) / 100 ≤ avail) :
    0 ≤ (distribute_portions total tbl avail ps).2 ∧
      ∀ p ∈ (distribute_portions total tbl avail ps).1, 0 ≤ p.2 := by
  induction tbl generalizing avail ps with
  | nil => exact ⟨hav, by simp [distribute_portions]⟩
  | cons q rest ih =>
    obtain ⟨d, pc⟩ := q
    by_cases havp : 0 < avail
    · simp only [distribute_portions, if_pos havp]
      by_cases hpc : 100 ≤ ps + pc
      · simp only [if_pos hpc]
        obtain ⟨h1, h2⟩ := ih (avail - avail) (ps + pc) (by omega) (by omega)
        exact ⟨h1, by
          intro p hp
          rcases List.mem_cons.mp hp with hp | hp
          · subst hp; simpa using le_of_lt havp
          · exact h2 p hp⟩
      · simp only [if_neg hpc]
        have hps : ps < 100 := by omega
        have hps1 : ps + pc < 100 := by omega
        have hma : (0 : Int) ≤ total * (pc : Int) / 100 :=
          Int.ediv_nonneg (mul_nonneg htotal (by positivity)) (by norm_num)
        have hkey : total - total * ((ps : Int) + (pc : Int)) / 100 ≤
            avail - total * (pc : Int) / 100 := by
          have hsplit : total * (ps : Int) / 100 + total * (pc : Int) / 100 ≤
              total * ((ps : Int) + (pc : Int)) / 100 := by
            have := ediv_add_ediv_le (total * (ps : Int)) (total * (pc : Int)) 100
              (by norm_num)
            calc total * (ps : Int) / 100 + total * (pc : Int) / 100
                ≤ (total * (ps : Int) + total * (pc : Int)) / 100 := this
              _ = total * ((ps : Int) + (pc : Int)) / 100 := by ring_nf
          have := hinv hps
          omega
        have hbound : total * ((ps : Int) + (pc : Int)) / 100 ≤ total := by
          have h100 : ((ps : Int) + (pc : Int)) ≤ 100 := by exact_mod_cast le_of_lt hps1
          calc total * ((ps : Int) + (pc : Int)) / 100
              ≤ total * 100 / 100 := Int.ediv_le_ediv (by norm_num)
                (mul_le_mul_of_nonneg_left h100 htotal)
            _ = total := Int.mul_ediv_cancel total (by norm_num)
        obtain ⟨h1, h2⟩ := ih (avail - total * (pc : Int) / 100) (ps + pc)
          (by omega)
          (by
            intro hlt
            have : ((ps + pc : Nat) : Int) = (ps : Int) + (pc : Int) := by push_cast; ring
            rw [this]
            exact hkey)
        refine ⟨h1, ?_⟩
        intro p hp
        rcases List.mem_cons.mp hp with hp | hp
        · subst hp; simpa using hma
        · exact h2 p hp
    · simp only [distribute_portions, if_neg havp]
      exact ⟨hav, by simp⟩

theorem distribute_names (total : Int) (tbl : ShareTable) (avail : Int) (ps : Nat) :
    ∀ p ∈ (distribute_portions total tbl avail ps).1, ∃ pc, (p.1, pc) ∈ tbl := by
  induction tbl generalizing avail ps with
  | nil => simp [distribute_portions]
  | cons q rest ih =>
    obtain ⟨d, pc⟩ := q
    by_cases hav : 0 < avail
    · simp only [distribute_portions, if_pos hav]
      intro p hp
      rcases List.mem_cons.mp hp with hp | hp
      · subst hp
        exact ⟨pc, List.mem_cons_self _ _⟩
      · obtain ⟨pc2, hpc2⟩ := ih _ _ p hp
        exact ⟨pc2, List.mem_cons_of_mem _ hpc2⟩
    · simp [distribute_portions, if_neg hav]

theorem burnAmt_bounds {dv : Int → Nat → Int} (hdv : DecayOK dv) (acct : Account)
    (today : Nat) (hb : 0 ≤ acct.balance) :
    0 ≤ burnAmt dv acct today ∧ burnAmt dv acct today ≤ acct.balance := by
  obtain ⟨h1, h2⟩ := hdv acct.balance (ni_days today acct.last_claim_day) hb
  unfold burnAmt
  omega

theorem clampedClaim_le (today : Nat) (acct : Account) (st : CurrencyStats) :
    clampedClaim today acct st ≤ st.max_supply - st.supply := by
  show (if st.max_supply - st.supply < (ubi_accrual today acct.last_claim_day).1
    then st.max_supply - st.supply else (ubi_accrual today acct.last_claim_day).1) ≤
    st.max_supply - st.supply
  split
  · omega
  · omega

theorem Inv_decayedState {dv : Int → Nat → Int} {today : Nat} {n : Name}
    {acct : Account} {s : TokenState} (hdv : DecayOK dv)
    (hg : getAcct s.accounts n = some acct) (hI : Inv s) :
    Inv (decayedState dv today n acct s) := by
  obtain ⟨hn, hsum, hmax⟩ := hI
  have hb : 0 ≤ acct.balance := hn (n, acct) (getAcct_mem hg)
  obtain ⟨hB0, hBle⟩ := burnAmt_bounds hdv acct today hb
  refine ⟨?_, ?_, ?_⟩
  · exact nonneg_updAcct hg hn (by simp; omega)
  · show totalBal (updAcct s.accounts n _) = _
    rw [totalBal_updAcct _ hg]
    simp [decayedState]
    omega
  · show s.stats.supply - burnAmt dv acct today ≤ s.stats.max_supply
    omega

theorem decayed_getAcct {dv : Int → Nat → Int} {today : Nat} {n : Name}
    {acct : Account} {s : TokenState} (hg : getAcct s.accounts n = some acct) :
    getAcct (decayedState dv today n acct s).accounts n =
      some ⟨acct.balance - burnAmt dv acct today, today⟩ :=
  getAcct_updAcct_self _ hg

theorem distribute_engine_facts (ca : Int) (tbl : ShareTable) (hca : 0 ≤ ca) :
    ((distribute_portions ca tbl ca 0).1.map (fun p => p.2)).sum
        + (distribute_portions ca tbl ca 0).2 = ca ∧
      0 ≤ (distribute_portions ca tbl ca 0).2 ∧
      ∀ p ∈ (distribute_portions ca tbl ca 0).1, 0 ≤ p.2 := by
  refine ⟨distribute_sum ca tbl ca 0, ?_⟩
  exact distribute_nonneg ca tbl ca 0 hca hca (by intro _; simp)

theorem Inv_paidState {dv : Int → Nat → Int} {today : Nat} {n : Name}
    {acct : Account} {s : TokenState} (hdv : DecayOK dv)
    (hg : getAcct s.accounts n = some acct) (hI : Inv s)
    (hca : 0 < clampedClaim today acct (decayedState dv today n acct s).stats) :
    Inv (paidState dv today n acct s) := by
  obtain ⟨hn1, hsum1, hmax1⟩ := @Inv_decayedState dv today n acct s hdv hg hI
  set s1 := decayedState dv today n acct s with hs1
  set ca := clampedClaim today acct s1.stats with hca2
  have hcale : ca ≤ s1.stats.max_supply - s1.stats.supply := clampedClaim_le _ _ _
  obtain ⟨hdsum, hrem, hports⟩ :=
    distribute_engine_facts ca (getShares s.shares n) (le_of_lt hca)
  set pr := distribute_portions ca (getShares s.shares n) ca 0 with hpr
  have hc2 : totalBal (creditAll s1.accounts pr.1) =
      totalBal s1.accounts + (pr.1.map (fun p => p.2)).sum := totalBal_creditAll _ _
  have hn2 : NonnegBal (creditAll s1.accounts pr.1) := nonneg_creditAll hn1 hports
  refine ⟨?_, ?_, ?_⟩
  · show NonnegBal (if 0 < pr.2 then add_balance (creditAll s1.accounts pr.1) n pr.2
      else creditAll s1.accounts pr.1)
    split
    · exact nonneg_add_balance hn2 hrem
    · exact hn2
  · show totalBal (if 0 < pr.2 then add_balance (creditAll s1.accounts pr.1) n pr.2
      else creditAll s1.accounts pr.1) = s1.stats.supply + ca
    split
    · rw [totalBal_add_balance, hc2]
      omega
    · rw [hc2]
      omega
  · show s1.stats.supply + ca ≤ s1.stats.max_supply
    omega

theorem paid_lcd {dv : Int → Nat → Int} {today : Nat} {n : Name}
    {acct : Account} {s : TokenState} (hg : getAcct s.accounts n = some acct) :
    ∃ b, getAcct (paidState dv today n acct s).accounts n = some b ∧
      b.last_claim_day = today := by
  have h1 := @decayed_getAcct dv today n acct s hg
  obtain ⟨b, hb, hlcd⟩ := @lcd_creditAll
    (distribute_portions (clampedClaim today acct
      (decayedState dv today n acct s).stats) (getShares s.shares n)
      (clampedClaim today acct (decayedState dv today n acct s).stats) 0).1 _ _ _ h1
  show ∃ c, getAcct (if 0 < (distribute_portions (clampedClaim today acct
      (decayedState dv today n acct s).stats) (getShares s.shares n)
      (clampedClaim today acct (decayedState dv today n acct s).stats) 0).2
    then add_balance (creditAll (decayedState dv today n acct s).accounts
      (distribute_portions (clampedClaim today acct
        (decayedState dv today n acct s).stats) (getShares s.shares n)
        (clampedClaim today acct (decayedState dv today n acct s).stats) 0).1) n
      (distribute_portions (clampedClaim today acct
        (decayedState dv today n acct s).stats) (getShares s.shares n)
        (clampedClaim today acct (decayedState dv today n acct s).stats) 0).2
    else creditAll (decayedState dv today n acct s).accounts
      (distribute_portions (clampedClaim today acct
        (decayedState dv today n acct s).stats) (getShares s.shares n)
        (clampedClaim today acct (decayedState dv today n acct s).stats) 0).1) n
    = some c ∧ c.last_claim_day = today
  split
  · obtain ⟨c, hc, hlcd2⟩ := lcd_add_balance n _ hb
    exact ⟨c, hc, by rw [hlcd2, hlcd]⟩
  · exact ⟨b, hb, hlcd⟩

theorem try_ubi_claim_some {dv : Int → Nat → Int} {today : Nat} {n : Name}
    {s : TokenState} {acct : Account} (hg : getAcct s.accounts n = some acct)
    (fl : Bool) :
    try_ubi_claim dv today n s fl =
      if today ≤ acct.last_claim_day then
        (if fl then Except.error Err.nothingDue else Except.ok s)
      else if clampedClaim today acct (decayedState dv today n acct s).stats ≤ 0 then
        (if fl then Except.error Err.noCoins else Except.ok (decayedState dv today n acct s))
      else Except.ok (paidState dv today n acct s) := by
  unfold try_ubi_claim
  rw [hg]

theorem try_ubi_claim_none {dv : Int → Nat → Int} {today : Nat} {n : Name}
    {s : TokenState} (hg : getAcct s.accounts n = none) (fl : Bool) :
    try_ubi_claim dv today n s fl = Except.error Err.noBalanceRecord := by
  unfold try_ubi_claim
  rw [hg]

theorem try_ubi_claim_ok_elim {dv : Int → Nat → Int} {today : Nat} {n : Name}
    {s : TokenState} {fl : Bool} {s' : TokenState}
    (h : try_ubi_claim dv today n s fl = Except.ok s') :
    ∃ acct, getAcct s.accounts n = some acct ∧
      ((today ≤ acct.last_claim_day ∧ s' = s) ∨
       (acct.last_claim_day < today ∧
         ((clampedClaim today acct (decayedState dv today n acct s).stats ≤ 0 ∧
            s' = decayedState dv today n acct s) ∨
          (0 < clampedClaim today acct (decayedState dv today n acct s).stats ∧
            s' = paidState dv today n acct s)))) := by
  unfold try_ubi_claim at h
  split at h
  next heq => simp at h
  next acct heq =>
    refine ⟨acct, heq, ?_⟩
    by_cases h1 : today ≤ acct.last_claim_day
    · rw [if_pos h1] at h
      cases fl with
      | true =>
          rw [if_pos rfl] at h
          exact Except.noConfusion h
      | false =>
        rw [if_neg Bool.false_ne_true] at h
        simp only [Except.ok.injEq] at h
        exact Or.inl ⟨h1, h.symm⟩
    · rw [if_neg h1] at h
      by_cases h2 : clampedClaim today acct (decayedState dv today n acct s).stats ≤ 0
      · rw [if_pos h2] at h
        cases fl with
        | true =>
          rw [if_pos rfl] at h
          exact Except.noConfusion h
        | false =>
          rw [if_neg Bool.false_ne_true] at h
          simp only [Except.ok.injEq] at h
          exact Or.inr ⟨by omega, Or.inl ⟨h2, h.symm⟩⟩
      · rw [if_neg h2] at h
        simp only [Except.ok.injEq] at h
        exact Or.inr ⟨by omega, Or.inr ⟨by omega, h.symm⟩⟩

theorem try_ubi_claim_false_err {dv : Int → Nat → Int} {today : Nat} {n : Name}
    {s : TokenState} {e : Err}
    (h : try_ubi_claim dv today n s false = Except.error e) :
    getAcct s.accounts n = none ∧ e = Err.noBalanceRecord := by
  unfold try_ubi_claim at h
  split at h
  next heq =>
    simp only [Except.error.injEq] at h
    exact ⟨heq, h.symm⟩
  next acct heq =>
    by_cases h1 : today ≤ acct.last_claim_day
    · rw [if_pos h1] at h
      simp at h
    · rw [if_neg h1] at h
      by_cases h2 : clampedClaim today acct (decayedState dv today n acct s).stats ≤ 0
      · rw [if_pos h2] at h
        simp at h
      · rw [if_neg h2] at h
        simp at h

theorem try_ubi_claim_inv {dv : Int → Nat → Int} {today : Nat} {n : Name}
    {s : TokenState} {fl : Bool} {s' : TokenState} (hdv : DecayOK dv) (hI : Inv s)
    (h : try_ubi_claim dv today n s fl = Except.ok s') : Inv s' := by
  obtain ⟨acct, hg, hcases⟩ := try_ubi_claim_ok_elim h
  rcases hcases with ⟨_, rfl⟩ | ⟨_, hcases⟩
  · exact hI
  · rcases hcases with ⟨_, rfl⟩ | ⟨hca, rfl⟩
    · exact Inv_decayedState hdv hg hI
    · exact Inv_paidState hdv hg hI hca

theorem try_ubi_claim_settled {dv : Int → Nat → Int} {today : Nat} {n : Name}
    {s : TokenState} {fl : Bool} {s' : TokenState}
    (h : try_ubi_claim dv today n s fl = Except.ok s') :
    ∃ b, getAcct s'.accounts n = some b ∧ today ≤ b.last_claim_day := by
  obtain ⟨acct, hg, hcases⟩ := try_ubi_claim_ok_elim h
  rcases hcases with ⟨hle, rfl⟩ | ⟨_, hcases⟩
  · exact ⟨acct, hg, hle⟩
  · rcases hcases with ⟨_, rfl⟩ | ⟨_, rfl⟩
    · exact ⟨_, decayed_getAcct hg, le_refl _⟩
    · obtain ⟨b, hb, hlcd⟩ := @paid_lcd dv today n acct s hg
      exact ⟨b, hb, le_of_eq hlcd.symm⟩

theorem try_ubi_claim_due_lcd {dv : Int → Nat → Int} {today : Nat} {n : Name}
    {s : TokenState} {fl : Bool} {s' : TokenState} {acct : Account}
    (hg : getAcct s.accounts n = some acct) (hdue : acct.last_claim_day < today)
    (h : try_ubi_claim dv today n s fl = Except.ok s') :
    ∃ b, getAcct s'.accounts n = some b ∧ b.last_claim_day = today := by
  obtain ⟨acct2, hg2, hcases⟩ := try_ubi_claim_ok_elim h
  rw [hg] at hg2
  cases hg2
  rcases hcases with ⟨hle, _⟩ | ⟨_, hcases⟩
  · omega
  · rcases hcases with ⟨_, rfl⟩ | ⟨_, rfl⟩
    · exact ⟨_, decayed_getAcct hg, rfl⟩
    · exact paid_lcd hg

theorem sub_balance_ok_elim {accts : List (Name × Account)} {owner : Name}
    {value : Int} {accts' : List (Name × Account)}
    (h : sub_balance accts owner value = Except.ok accts') :
    ∃ a, getAcct accts owner = some a ∧ value ≤ a.balance ∧
      accts' = updAcct accts owner (fun b => { b with balance := b.balance - value }) := by
  unfold sub_balance at h
  split at h
  next heq => exact absurd h (by simp)
  next a heq =>
    split at h
    next hlt => exact absurd h (by simp)
    next hlt =>
      simp only [Except.ok.injEq] at h
      exact ⟨a, heq, by omega, h.symm⟩

theorem sub_balance_facts {accts : List (Name × Account)} {owner : Name}
    {value : Int} {accts' : List (Name × Account)} (hn : NonnegBal accts)
    (h : sub_balance accts owner value = Except.ok accts') :
    NonnegBal accts' ∧ totalBal accts' = totalBal accts - value := by
  obtain ⟨a, hg, hle, rfl⟩ := sub_balance_ok_elim h
  constructor
  · exact nonneg_updAcct hg hn (by simp; omega)
  · rw [totalBal_updAcct _ hg]
    simp

theorem mem_eraseAcct {accts : List (Name × Account)} {n : Name}
    {p : Name × Account} (h : p ∈ eraseAcct accts n) : p ∈ accts := by
  induction accts with
  | nil => simp [eraseAcct] at h
  | cons q rest ih =>
    obtain ⟨m, a⟩ := q
    by_cases hm : m = n
    · simp only [eraseAcct, if_pos hm] at h
      exact List.mem_cons_of_mem _ h
    · simp only [eraseAcct, if_neg hm] at h
      rcases List.mem_cons.mp h with h | h
      · exact h ▸ List.mem_cons_self _ _
      · exact List.mem_cons_of_mem _ (ih h)

theorem totalBal_eraseAcct {accts : List (Name × Account)} {n : Name} {a : Account}
    (h : getAcct accts n = some a) :
    totalBal (eraseAcct accts n) = totalBal accts - a.balance := by
  induction accts with
  | nil => simp [getAcct] at h
  | cons q rest ih =>
    obtain ⟨m, b⟩ := q
    by_cases hm : m = n
    · simp [getAcct, hm] at h
      subst h
      simp [eraseAcct, hm, totalBal_cons]
    · simp [getAcct, hm] at h
      simp [eraseAcct, hm, totalBal_cons, ih h]
      ring

theorem Inv_issue {q : Int} {s s' : TokenState} (hI : Inv s)
    (h : issue q s = Except.ok s') : Inv s' := by
  obtain ⟨hn, hsum, hmax⟩ := hI
  unfold issue at h
  split at h
  · exact absurd h (by simp)
  next hq =>
    split at h
    · exact absurd h (by simp)
    next havail =>
      simp only [Except.ok.injEq] at h
      subst h
      refine ⟨?_, ?_, ?_⟩
      · exact nonneg_add_balance hn (by omega)
      · show totalBal (add_balance s.accounts s.stats.issuer q) = s.stats.supply + q
        rw [totalBal_add_balance]
        omega
      · show s.stats.supply + q ≤ s.stats.max_supply
        omega

theorem Inv_retire {q : Int} {s s' : TokenState} (hI : Inv s)
    (h : retire q s = Except.ok s') : Inv s' := by
  obtain ⟨hn, hsum, hmax⟩ := hI
  unfold retire at h
  split at h
  · exact absurd h (by simp)
  next hq =>
    split at h
    next e heq => exact absurd h (by simp)
    next accts heq =>
      simp only [Except.ok.injEq] at h
      subst h
      obtain ⟨hn2, hsum2⟩ := sub_balance_facts hn heq
      refine ⟨hn2, ?_, ?_⟩
      · show totalBal accts = s.stats.supply - q
        omega
      · show s.stats.supply - q ≤ s.stats.max_supply
        omega

theorem Inv_burn {o : Name} {q : Int} {s s' : TokenState} (hI : Inv s)
    (h : burn o q s = Except.ok s') : Inv s' := by
  obtain ⟨hn, hsum, hmax⟩ := hI
  unfold burn at h
  split at h
  · exact absurd h (by simp)
  next hq =>
    split at h
    next e heq => exact absurd h (by simp)
    next accts heq =>
      simp only [Except.ok.injEq] at h
      subst h
      obtain ⟨hn2, hsum2⟩ := sub_balance_facts hn heq
      refine ⟨hn2, ?_, ?_⟩
      · show totalBal accts = s.stats.supply - q
        omega
      · show s.stats.supply - q ≤ s.stats.max_supply
        omega

theorem Inv_transfer {dv : Int → Nat → Int} {today : Nat} {f t : Name} {q : Int}
    {s s' : TokenState} (hdv : DecayOK dv) (hI : Inv s)
    (h : transfer dv today f t q s = Except.ok s') : Inv s' := by
  unfold transfer at h
  split at h
  · exact absurd h (by simp)
  split at h
  next hq => exact absurd h (by simp)
  next hq =>
    split at h
    next e heq => exact absurd h (by simp)
    next s1 heq1 =>
      split at h
      next e heq => exact absurd h (by simp)
      next s2 heq2 =>
        split at h
        next e heq => exact absurd h (by simp)
        next a3 heq3 =>
          simp only [Except.ok.injEq] at h
          subst h
          have hI1 := try_ubi_claim_inv hdv hI heq1
          have hI2 := try_ubi_claim_inv hdv hI1 heq2
          obtain ⟨hn2, hsum2, hmax2⟩ := hI2
          obtain ⟨hn3, hsum3⟩ := sub_balance_facts hn2 heq3
          refine ⟨?_, ?_, ?_⟩
          · exact nonneg_add_balance hn3 (by omega)
          · show totalBal (add_balance a3 t q) = s2.stats.supply
            rw [totalBal_add_balance]
            omega
          · exact hmax2

theorem Inv_openAccount {o : Name} {s : TokenState} (hI : Inv s) :
    Inv (openAccount o s) := by
  obtain ⟨hn, hsum, hmax⟩ := hI
  unfold openAccount
  split
  · exact ⟨hn, hsum, hmax⟩
  · refine ⟨?_, ?_, hmax⟩
    · intro p hp
      rcases List.mem_append.mp hp with hp | hp
      · exact hn p hp
      · simp at hp
        subst hp
        simp
    · show totalBal (s.accounts ++ [(o, ⟨0, 0⟩)]) = s.stats.supply
      rw [totalBal_append]
      simpa [totalBal] using hsum

theorem Inv_claimfor {dv : Int → Nat → Int} {today : Nat} {o : Name}
    {s s' : TokenState} (hdv : DecayOK dv) (hI : Inv s)
    (h : claimfor dv today o s = Except.ok s') : Inv s' :=
  try_ubi_claim_inv hdv (Inv_openAccount hI) h

theorem Inv_close {today : Nat} {o : Name} {s s' : TokenState} (hI : Inv s)
    (h : close today o s = Except.ok s') : Inv s' := by
  obtain ⟨hn, hsum, hmax⟩ := hI
  unfold close at h
  split at h
  next heq => exact absurd h (by simp)
  next a heq =>
    split at h
    · exact absurd h (by simp)
    next hz =>
      split at h
      · exact absurd h (by simp)
      next hlcd =>
        simp only [Except.ok.injEq] at h
        subst h
        refine ⟨fun p hp => hn p (mem_eraseAcct hp), ?_, hmax⟩
        show totalBal (eraseAcct s.accounts o) = s.stats.supply
        rw [totalBal_eraseAcct heq]
        simp at hz
        omega

theorem Inv_setshareS {o t : Name} {p : Int} {s s' : TokenState} (hI : Inv s)
    (h : setshareS o t p s = Except.ok s') : Inv s' := by
  unfold setshareS at h
  split at h
  · exact absurd h (by simp)
  next tbl heq =>
    simp only [Except.ok.injEq] at h
    subst h
    exact hI

theorem Inv_resetshareS {o : Name} {s : TokenState} (hI : Inv s) :
    Inv (resetshareS o s) := hI

theorem Step_inv {dv : Int → Nat → Int} {s s' : TokenState} (hdv : DecayOK dv)
    (hI : Inv s) (hstep : Step dv s s') : Inv s' := by
  cases hstep with
  | issue q s s' h => exact Inv_issue hI h
  | retire q s s' h => exact Inv_retire hI h
  | burn o q s s' h => exact Inv_burn hI h
  | transfer today f t q s s' h => exact Inv_transfer hdv hI h
  | claimfor today o s s' h => exact Inv_claimfor hdv hI h
  | openA o s => exact Inv_openAccount hI
  | close today o s s' h => exact Inv_close hI h
  | setshare o t p s s' h => exact Inv_setshareS hI h
  | resetshare o s => exact Inv_resetshareS hI

theorem Reachable_inv {dv : Int → Nat → Int} {s : TokenState} (hdv : DecayOK dv)
    (hr : Reachable dv s) : Inv s := by
  induction hr with
  | init issuer max_supply hpos =>
    exact ⟨by intro p hp; simp [createState] at hp, rfl, by
      show (0 : Int) ≤ max_supply
      omega⟩
  | step s s' hr hstep ih => exact Step_inv hdv ih hstep

theorem try_ubi_claim_absent {dv : Int → Nat → Int} {today : Nat} {f t : Name}
    {s s1 : TokenState} (h : try_ubi_claim dv today f s false = Except.ok s1)
    (ht : getAcct s.accounts t = none) (htf : t ≠ f)
    (hsh : ∀ p ∈ getShares s.shares f, p.1 ≠ t) :
    getAcct s1.accounts t = none := by
  obtain ⟨acct, hg, hcases⟩ := try_ubi_claim_ok_elim h
  rcases hcases with ⟨_, rfl⟩ | ⟨_, hcases⟩
  · exact ht
  · have hdec : getAcct (decayedState dv today f acct s).accounts t = none := by
      show getAcct (updAcct s.accounts f _) t = none
      rw [getAcct_updAcct_ne _ htf]
      exact ht
    rcases hcases with ⟨_, rfl⟩ | ⟨_, rfl⟩
    · exact hdec
    · have hports : ∀ p ∈ (distribute_portions (clampedClaim today acct
          (decayedState dv today f acct s).stats) (getShares s.shares f)
          (clampedClaim today acct (decayedState dv today f acct s).stats) 0).1,
          p.1 ≠ t := by
        intro p hp
        obtain ⟨pc, hpc⟩ := distribute_names _ _ _ _ p hp
        exact hsh (p.1, pc) hpc
      have hcred : getAcct (creditAll (decayedState dv today f acct s).accounts
          (distribute_portions (clampedClaim today acct
            (decayedState dv today f acct s).stats) (getShares s.shares f)
            (clampedClaim today acct (decayedState dv today f acct s).stats) 0).1) t
          = none := absent_creditAll hdec hports
      show getAcct (if _ then add_balance _ f _ else _) t = none
      split
      · rw [getAcct_add_balance_ne _ htf]
        exact hcred
      · exact hcred

theorem lookupShare_none_of_not_mem {tbl : ShareTable} {t : Name}
    (h : t ∉ tbl.map Prod.fst) : lookupShare tbl t = none := by
  induction tbl with
  | nil => rfl
  | cons q rest ih =>
    obtain ⟨m, p⟩ := q
    rw [List.map_cons] at h
    have h1 : t ≠ m := fun hc => h (by rw [hc]; exact List.mem_cons_self _ _)
    have h2 : t ∉ rest.map Prod.fst := fun hc => h (List.mem_cons_of_mem _ hc)
    have hm : m ≠ t := fun hc => h1 hc.symm
    simp [lookupShare, hm, ih h2]

theorem mem_updShare {tbl : ShareTable} {t : Name} {p : Nat}
    {q : Name × Nat} (h : q ∈ updShare tbl t p) : q ∈ tbl ∨ q = (t, p) := by
  induction tbl with
  | nil => simp [updShare] at h
  | cons r rest ih =>
    obtain ⟨m, v⟩ := r
    by_cases hm : m = t
    · simp only [updShare, if_pos hm] at h
      rcases List.mem_cons.mp h with h | h
      · subst hm
        exact Or.inr h
      · exact Or.inl (List.mem_cons_of_mem _ h)
    · simp only [updShare, if_neg hm] at h
      rcases List.mem_cons.mp h with h | h
      · exact Or.inl (h ▸ List.mem_cons_self _ _)
      · rcases ih h with h | h
        · exact Or.inl (List.mem_cons_of_mem _ h)
        · exact Or.inr h

theorem keys_updShare (tbl : ShareTable) (t : Name) (p : Nat) :
    (updShare tbl t p).map Prod.fst = tbl.map Prod.fst := by
  induction tbl with
  | nil => rfl
  | cons r rest ih =>
    obtain ⟨m, v⟩ := r
    by_cases hm : m = t
    · simp [updShare, hm]
    · simp [updShare, hm, ih]

theorem mem_eraseShare {tbl : ShareTable} {t : Name} {q : Name × Nat}
    (h : q ∈ eraseShare tbl t) : q ∈ tbl := by
  induction tbl with
  | nil => simp [eraseShare] at h
  | cons r rest ih =>
    obtain ⟨m, v⟩ := r
    by_cases hm : m = t
    · simp only [eraseShare, if_pos hm] at h
      exact List.mem_cons_of_mem _ h
    · simp only [eraseShare, if_neg hm] at h
      rcases List.mem_cons.mp h with h | h
      · exact h ▸ List.mem_cons_self _ _
      · exact List.mem_cons_of_mem _ (ih h)

theorem keys_eraseShare_sublist (tbl : ShareTable) (t : Name) :
    List.Sublist ((eraseShare tbl t).map Prod.fst) (tbl.map Prod.fst) := by
  induction tbl with
  | nil => simp [eraseShare]
  | cons r rest ih =>
    obtain ⟨m, v⟩ := r
    by_cases hm : m = t
    · simp only [eraseShare, if_pos hm, List.map_cons]
      exact List.sublist_cons_of_sublist _ (List.Sublist.refl _)
    · simp only [eraseShare, if_neg hm, List.map_cons]
      exact List.Sublist.cons₂ _ ih

theorem lookupShare_eraseShare_self {tbl : ShareTable} {t : Name}
    (hnd : (tbl.map Prod.fst).Nodup) : lookupShare (eraseShare tbl t) t = none := by
  induction tbl with
  | nil => rfl
  | cons r rest ih =>
    obtain ⟨m, v⟩ := r
    simp only [List.map_cons, List.nodup_cons] at hnd
    by_cases hm : m = t
    · simp only [eraseShare, if_pos hm]
      apply lookupShare_none_of_not_mem
      rw [← hm]
      exact hnd.1
    · simp only [eraseShare, if_neg hm, lookupShare, if_neg hm]
      exact ih hnd.2

theorem setshare_ok_elim {o d : Name} {p : Int} {tbl tbl' : ShareTable}
    (h : setshare o d p tbl = Except.ok tbl') :
    (0 ≤ p ∧ p ≤ 100) ∧ o ≠ d ∧ tbl' = setshare_upsert d p tbl ∧
      pcsum (setshare_upsert d p tbl) ≤ 100 := by
  unfold setshare at h
  split at h
  · exact absurd h (by simp)
  next hp =>
    split at h
    · exact absurd h (by simp)
    next ho =>
      split at h
      next hsum =>
        simp only [Except.ok.injEq] at h
        push_neg at hp
        exact ⟨⟨by omega, by omega⟩, ho, h.symm, hsum⟩
      · exact absurd h (by simp)

theorem distribute_zero_avail (total : Int) (tbl : ShareTable) (ps : Nat) :
    distribute_portions total tbl 0 ps = ([], 0) := by
  cases tbl with
  | nil => rfl
  | cons q rest =>
    obtain ⟨d, pc⟩ := q
    simp [distribute_portions]

/-- C1: for every distribution run by the claim engine — any total amount
`≥ 0` and any share list whose percentages are each 0-100 — the sum of the
portions credited to beneficiaries plus the residue credited back to the
owner equals exactly the total amount; a share whose running percent sum
reaches 100 absorbs the full remaining amount, and when the percentages
sum to less than 100 the untouched remainder is the owner residue. -/
theorem claim_distribution_conservation (total : Int) (tbl : ShareTable)
    (htotal : 0 ≤ total) (_hpc : ∀ q ∈ tbl, q.2 ≤ 100) :
    (((distribute_portions total tbl total 0).1.map (fun p => p.2)).sum
        + ownerResidue (distribute_portions total tbl total 0).2 = total)
    ∧ (∀ dst pc rest avail ps, 0 < avail → 100 ≤ ps + pc →
        (distribute_portions total ((dst, pc) :: rest) avail ps).1 = [(dst, avail)])
    ∧ (pcsum tbl < 100 →
        ownerResidue (distribute_portions total tbl total 0).2 =
          total - ((distribute_portions total tbl total 0).1.map (fun p => p.2)).sum) := by
  have hsum := distribute_sum total tbl total 0
  have hnn := distribute_nonneg total tbl total 0 htotal htotal (by intro _; simp)
  have hres : ownerResidue (distribute_portions total tbl total 0).2 =
      (distribute_portions total tbl total 0).2 := by
    unfold ownerResidue
    split
    · rfl
    · omega
  refine ⟨by rw [hres]; omega, ?_, by rw [hres]; omega⟩
  intro dst pc rest avail ps hav hpcs
  simp only [distribute_portions, if_pos hav, if_pos hpcs, sub_self,
    distribute_zero_avail]

/-- C1 witness: the conservation equation evaluated at total 1000000 and
shares 60% and 40% (scenario D shape). -/
theorem claim_distribution_conservation_witness :
    ((distribute_portions 1000000 [(2, 60), (3, 40)] 1000000 0).1.map
        (fun p => p.2)).sum
      + ownerResidue (distribute_portions 1000000 [(2, 60), (3, 40)] 1000000 0).2
      = 1000000 :=
  (claim_distribution_conservation 1000000 [(2, 60), (3, 40)] (by norm_num)
    (by decide)).1

/-- C2: for a settlement with UBI due (`lcd < today`) the accrual is sized
as `pendingDays = today - effectivePrevDay - 1`, clamped at 360 with the
excess lost, `claimDays = pendingDays + 1`, and the amount is `claimDays`
currency units at the 4-decimal scale; concretely `lcd = 50`,
`today = 500` gives 361 claim days (3610000 units) and 89 lost days. -/
theorem claim_accrual_sizing (today lcd : Nat) (h : lcd < today) :
    (ubi_accrual today lcd =
      ((min ((today : Int) - ((if lcd = 0 then today - 1 else lcd : Nat) : Int) - 1) 360
          + 1) * 10000,
        if 360 < (today : Int) - ((if lcd = 0 then today - 1 else lcd : Nat) : Int) - 1
        then (today : Int) - ((if lcd = 0 then today - 1 else lcd : Nat) : Int) - 1 - 360
        else 0))
    ∧ ubi_accrual 500 50 = (3610000, 89) := by
  refine ⟨?_, by decide⟩
  unfold ubi_accrual
  simp only [max_past_claim_days, PRECISION_MULTIPLIER, Prod.mk.injEq]
  constructor
  · split
    next hgt => omega
    next hgt => omega
  · trivial

/-- C2 witness: the concrete scenario from the claim. -/
theorem claim_accrual_sizing_witness : ubi_accrual 500 50 = (3610000, 89) :=
  (claim_accrual_sizing 500 50 (by norm_num)).2

/-- C4 counterexample: `burn` moves funds without invoking the claim
engine.  On day 5, burning 10000 units from account 7 (whose stored
last-settlement day is 2 < 5) succeeds and leaves the last-settlement day
at 2; a settlement on the same state (last conjunct) would instead move it
to 5 and pay the pending UBI first.  `issue` and `retire` behave the same
way; only `transfer` settles. -/
theorem claim_wrappers_counterexample :
    burn 7 10000 ⟨[(7, ⟨50000, 2⟩)], ⟨50000, 100000, 7, 0, 0⟩, []⟩
      = Except.ok ⟨[(7, ⟨40000, 2⟩)], ⟨40000, 100000, 7, 10000, 0⟩, []⟩
    ∧ (getAcct [(7, (⟨40000, 2⟩ : Account))] 7).map Account.last_claim_day = some 2
    ∧ (2 : Nat) < 5
    ∧ try_ubi_claim (fun b _ => b) 5 7 ⟨[(7, ⟨50000, 2⟩)], ⟨50000, 100000, 7, 0, 0⟩, []⟩
        false
      = Except.ok ⟨[(7, ⟨80000, 5⟩)], ⟨80000, 100000, 7, 0, 1⟩, []⟩ := by
  refine ⟨rfl, rfl, by norm_num, rfl⟩

/-- C4 (amended): `transfer` invokes the claim engine on both affected
accounts before moving funds; `issue`, `retire` and `burn` do not invoke
the claim engine at all — they mutate balances directly and leave every
stored last-settlement day unchanged. -/
theorem claim_settlement_wrappers :
    (∀ dv today f t q s s2, transfer dv today f t q s = Except.ok s2 →
      ∃ sa sb a3, try_ubi_claim dv today f s false = Except.ok sa
        ∧ try_ubi_claim dv today t sa false = Except.ok sb
        ∧ sub_balance sb.accounts f q = Except.ok a3
        ∧ s2 = { sb with accounts := add_balance a3 t q })
    ∧ (∀ o q s s', burn o q s = Except.ok s' → preservesLcd s s')
    ∧ (∀ q s s', retire q s = Except.ok s' → preservesLcd s s')
    ∧ (∀ q s s', issue q s = Except.ok s' → preservesLcd s s') := by
  refine ⟨?_, ?_, ?_, ?_⟩
  · intro dv today f t q s s2 h
    unfold transfer at h
    split at h
    · exact absurd h (by simp)
    split at h
    · exact absurd h (by simp)
    split at h
    next e heq => exact absurd h (by simp)
    next sa heqa =>
      split at h
      next e heq => exact absurd h (by simp)
      next sb heqb =>
        split at h
        next e heq => exact absurd h (by simp)
        next a3 heq3 =>
          simp only [Except.ok.injEq] at h
          exact ⟨sa, sb, a3, heqa, heqb, heq3, h.symm⟩
  · intro o q s s' h
    unfold burn at h
    split at h
    · exact absurd h (by simp)
    split at h
    next e heq => exact absurd h (by simp)
    next accts heq =>
      simp only [Except.ok.injEq] at h
      subst h
      obtain ⟨a, hg, hle, rfl⟩ := sub_balance_ok_elim heq
      intro m b hb
      exact lcd_updAcct hb (fun x => rfl)
  · intro q s s' h
    unfold retire at h
    split at h
    · exact absurd h (by simp)
    split at h
    next e heq => exact absurd h (by simp)
    next accts heq =>
      simp only [Except.ok.injEq] at h
      subst h
      obtain ⟨a, hg, hle, rfl⟩ := sub_balance_ok_elim heq
      intro m b hb
      exact lcd_updAcct hb (fun x => rfl)
  · intro q s s' h
    unfold issue at h
    split at h
    · exact absurd h (by simp)
    split at h
    · exact absurd h (by simp)
    simp only [Except.ok.injEq] at h
    subst h
    intro m b hb
    exact lcd_add_balance _ _ hb

/-- C4 witness: the burn conjunct applied to the concrete burn of the
counterexample — the surviving row keeps its old last-settlement day. -/
theorem claim_settlement_wrappers_witness :
    ∃ b, getAcct [(7, (⟨40000, 2⟩ : Account))] 7 = some b ∧
      b.last_claim_day = 2 :=
  claim_settlement_wrappers.2.1 7 10000
    ⟨[(7, ⟨50000, 2⟩)], ⟨50000, 100000, 7, 0, 0⟩, []⟩
    ⟨[(7, ⟨40000, 2⟩)], ⟨40000, 100000, 7, 10000, 0⟩, []⟩ rfl
    7 ⟨50000, 2⟩ rfl

/-- C5 counterexample: when the clamped claim is zero and the caller
demands a result, `check(false, "no coins")` aborts the whole transaction:
the call yields an error and there is no post state at all, so the decay
and the last-settlement-day update do *not* remain in effect (the account
below is due at day 10 with `lcd = 3`, but the supply already sits at the
ceiling). -/
theorem claim_supply_cap_counterexample :
    try_ubi_claim (fun b _ => b) 10 1
        ⟨[(1, ⟨0, 3⟩)], ⟨500000, 500000, 9, 0, 0⟩, []⟩ true
      = Except.error Err.noCoins
    ∧ ¬ ∃ s2, try_ubi_claim (fun b _ => b) 10 1
        ⟨[(1, ⟨0, 3⟩)], ⟨500000, 500000, 9, 0, 0⟩, []⟩ true = Except.ok s2 := by
  refine ⟨rfl, ?_⟩
  rintro ⟨s2, hs2⟩
  rw [show try_ubi_claim (fun b _ => b) 10 1
      ⟨[(1, ⟨0, 3⟩)], ⟨500000, 500000, 9, 0, 0⟩, []⟩ true
      = Except.error Err.noCoins from rfl] at hs2
  exact Except.noConfusion hs2

/-- C5 (amended): when UBI is due and the claim amount clamped to
`max_supply - supply` (measured after the demurrage) is ≤ 0, the engine
fails with NoCoinsAvailable when `failIfNothingDue` is set — aborting the
transaction, decay included — and otherwise returns with exactly the decay
and the last-settlement-day update applied, which are then never rolled
back. -/
theorem claim_supply_cap {dv : Int → Nat → Int} {today : Nat} {n : Name}
    {s : TokenState} {acct : Account}
    (hg : getAcct s.accounts n = some acct) (hdue : acct.last_claim_day < today)
    (hclamp : clampedClaim today acct (decayedState dv today n acct s).stats ≤ 0) :
    try_ubi_claim dv today n s true = Except.error Err.noCoins
    ∧ try_ubi_claim dv today n s false = Except.ok (decayedState dv today n acct s)
    ∧ ∃ b, getAcct (decayedState dv today n acct s).accounts n = some b ∧
        b.last_claim_day = today ∧
        b.balance = acct.balance - burnAmt dv acct today := by
  have hnle : ¬ today ≤ acct.last_claim_day := by omega
  refine ⟨?_, ?_, ?_⟩
  · rw [try_ubi_claim_some hg true, if_neg hnle, if_pos hclamp]
    rfl
  · rw [try_ubi_claim_some hg false, if_neg hnle, if_pos hclamp]
    rfl
  · exact ⟨_, decayed_getAcct hg, rfl, rfl⟩

/-- C5 witness: account 3 is due at day 9 with the supply at the ceiling;
the non-failing call returns the decay-only state. -/
theorem claim_supply_cap_witness :
    try_ubi_claim (fun b _ => b) 9 3
        ⟨[(3, ⟨600, 4⟩)], ⟨700000, 700000, 9, 0, 0⟩, []⟩ false
      = Except.ok (decayedState (fun b _ => b) 9 3 ⟨600, 4⟩
          ⟨[(3, ⟨600, 4⟩)], ⟨700000, 700000, 9, 0, 0⟩, []⟩) :=
  (@claim_supply_cap (fun b _ => b) 9 3
    ⟨[(3, ⟨600, 4⟩)], ⟨700000, 700000, 9, 0, 0⟩, []⟩ ⟨600, 4⟩
    rfl (by norm_num) (by decide)).2.1

/-- C6 counterexample: an accrual failure does roll the last-settlement-day
update back.  Account 1 is due at day 9 (`lcd = 2`) but the supply sits at
the ceiling; with `failIfNothingDue` the engine aborts with NoCoinsAvailable
and no post state exists, so the day update (and the decay) are discarded
rather than kept. -/
theorem claim_lcd_counterexample :
    try_ubi_claim (fun b _ => b) 9 1
        ⟨[(1, ⟨0, 2⟩)], ⟨300000, 300000, 9, 0, 0⟩, []⟩ true
      = Except.error Err.noCoins
    ∧ ¬ ∃ s2, try_ubi_claim (fun b _ => b) 9 1
        ⟨[(1, ⟨0, 2⟩)], ⟨300000, 300000, 9, 0, 0⟩, []⟩ true = Except.ok s2 := by
  refine ⟨rfl, ?_⟩
  rintro ⟨s2, hs2⟩
  rw [show try_ubi_claim (fun b _ => b) 9 1
      ⟨[(1, ⟨0, 2⟩)], ⟨300000, 300000, 9, 0, 0⟩, []⟩ true
      = Except.error Err.noCoins from rfl] at hs2
  exact Except.noConfusion hs2

/-- C6 (amended): for every due settlement (`lcd < today`), every outcome
in which the engine returns a state — the accrual succeeded or yielded
zero — has the account's last-settlement day set to `today`, so an accrual
that cannot be paid in a returning run is lost, not deferred; an aborting
run (`NoCoinsAvailable` under `failIfNothingDue`) discards the whole
transaction, day update included. -/
theorem claim_lcd_set_to_today {dv : Int → Nat → Int} {today : Nat} {n : Name}
    {s s2 : TokenState} {acct : Account} {fl : Bool}
    (hg : getAcct s.accounts n = some acct) (hdue : acct.last_claim_day < today)
    (h : try_ubi_claim dv today n s fl = Except.ok s2) :
    ∃ b, getAcct s2.accounts n = some b ∧ b.last_claim_day = today :=
  try_ubi_claim_due_lcd hg hdue h

/-- C6 witness: a due account settled on day 5 ends with day 5 stored. -/
theorem claim_lcd_set_to_today_witness :
    ∃ b, getAcct ([(1, (⟨30100, 5⟩ : Account))]) 1 = some b ∧
      b.last_claim_day = 5 := by
  have h := @claim_lcd_set_to_today (fun b _ => b) 5 1
    ⟨[(1, ⟨100, 2⟩)], ⟨100, 1000000, 9, 0, 0⟩, []⟩
    ⟨[(1, ⟨30100, 5⟩)], ⟨30100, 1000000, 9, 0, 1⟩, []⟩
    ⟨100, 2⟩ false rfl (by norm_num) rfl
  exact h

/-- C8: when the stored last-settlement day is at or past `today`, the
settlement call is a no-op — it returns the state unchanged when
`failIfNothingDue` is false and fails with NothingDue when it is true —
and any second settlement call on the result of a successful first one
leaves the state untouched. -/
theorem claim_settlement_idempotent (dv : Int → Nat → Int) (today : Nat) (n : Name)
    (s : TokenState) :
    (∀ a, getAcct s.accounts n = some a → today ≤ a.last_claim_day →
      try_ubi_claim dv today n s false = Except.ok s ∧
      try_ubi_claim dv today n s true = Except.error Err.nothingDue)
    ∧ ∀ s2, try_ubi_claim dv today n s false = Except.ok s2 →
        try_ubi_claim dv today n s2 false = Except.ok s2 := by
  constructor
  · intro a hg hle
    constructor
    · rw [try_ubi_claim_some hg false, if_pos hle]
      rfl
    · rw [try_ubi_claim_some hg true, if_pos hle]
      rfl
  · intro s2 h
    obtain ⟨b, hb, hle⟩ := try_ubi_claim_settled h
    rw [try_ubi_claim_some hb false, if_pos hle]
    rfl

/-- C8 witness: account 4 already settled through day 5; a day-5 call is a
no-op or NothingDue, and a repeated call after a successful one changes
nothing. -/
theorem claim_settlement_idempotent_witness :
    try_ubi_claim (fun b _ => b) 5 4
        ⟨[(4, ⟨7000, 5⟩)], ⟨7000, 90000, 9, 0, 0⟩, []⟩ false
      = Except.ok ⟨[(4, ⟨7000, 5⟩)], ⟨7000, 90000, 9, 0, 0⟩, []⟩
    ∧ try_ubi_claim (fun b _ => b) 5 4
        ⟨[(4, ⟨7000, 5⟩)], ⟨7000, 90000, 9, 0, 0⟩, []⟩ true
      = Except.error Err.nothingDue :=
  (claim_settlement_idempotent (fun b _ => b) 5 4
      ⟨[(4, ⟨7000, 5⟩)], ⟨7000, 90000, 9, 0, 0⟩, []⟩).1
    ⟨7000, 5⟩ rfl (by norm_num)

/-- C10 counterexample: a transfer to a recipient with no balance record
can succeed.  Sender 1 settles during the transfer and its share row
(50% to account 2) makes the distribution create account 2's record, so
the subsequent settlement of the recipient and the credit both find a
row; the claim's predicted missing-balance failure does not occur. -/
theorem claim_recipient_record_counterexample :
    getAcct [(1, (⟨0, 2⟩ : Account))] 2 = none
    ∧ transfer (fun b _ => b) 5 1 2 1000
        ⟨[(1, ⟨0, 2⟩)], ⟨0, 1000000, 9, 0, 0⟩, [(1, [(2, 50)])]⟩
      = Except.ok ⟨[(1, ⟨14000, 5⟩), (2, ⟨26000, 5⟩)],
          ⟨40000, 1000000, 9, 0, 2⟩, [(1, [(2, 50)])]⟩ :=
  ⟨rfl, rfl⟩

/-- C10 (amended): a transfer to a recipient with no balance record fails
with the missing-balance error — before any balance change survives —
unless the sender's settlement itself creates the recipient's record,
i.e. whenever the recipient is not a beneficiary in the sender's share
table. -/
theorem claim_transfer_missing_recipient {dv : Int → Nat → Int} {today : Nat}
    {f t : Name} {q : Int} {s : TokenState} (hft : f ≠ t) (hq : 0 < q)
    (ht : getAcct s.accounts t = none)
    (hsh : ∀ p ∈ getShares s.shares f, p.1 ≠ t) :
    transfer dv today f t q s = Except.error Err.noBalanceRecord := by
  unfold transfer
  rw [if_neg hft, if_neg (by omega : ¬ q ≤ 0)]
  cases hf : try_ubi_claim dv today f s false with
  | error e =>
    obtain ⟨_, rfl⟩ := try_ubi_claim_false_err hf
    rfl
  | ok s1 =>
    have ht1 : getAcct s1.accounts t = none :=
      try_ubi_claim_absent hf ht (fun hc => hft hc.symm) hsh
    show (match try_ubi_claim dv today t s1 false with
      | Except.error e => Except.error e
      | Except.ok s2 =>
        match sub_balance s2.accounts f q with
        | Except.error e => Except.error e
        | Except.ok a3 => Except.ok { s2 with accounts := add_balance a3 t q })
      = Except.error Err.noBalanceRecord
    rw [try_ubi_claim_none ht1 false]

/-- C10 witness: with no share rows for the sender, a transfer to the
recordless account 2 fails with the missing-balance error. -/
theorem claim_transfer_missing_recipient_witness :
    transfer (fun b _ => b) 5 1 2 100
        ⟨[(1, ⟨5000, 5⟩)], ⟨5000, 90000, 9, 0, 0⟩, []⟩
      = Except.error Err.noBalanceRecord :=
  @claim_transfer_missing_recipient (fun b _ => b) 5 1 2 100
    ⟨[(1, ⟨5000, 5⟩)], ⟨5000, 90000, 9, 0, 0⟩, []⟩
    (by norm_num) (by norm_num) rfl (by simp [getShares])

/-- C7: in every reachable state of the contract — starting from `create`
and closed under issue, retire, burn, transfer, claim/claimfor, open,
close and the share actions — the supply satisfies
`0 ≤ supply ≤ max_supply`: issue rejects quantities beyond
`max_supply - supply`, the UBI accrual is clamped to the remaining
headroom, and no operation can drive the supply negative. -/
theorem claim_supply_invariant {dv : Int → Nat → Int} (hdv : DecayOK dv)
    {s : TokenState} (hs : Reachable dv s) :
    0 ≤ s.stats.supply ∧ s.stats.supply ≤ s.stats.max_supply := by
  obtain ⟨hn, hsum, hmax⟩ := Reachable_inv hdv hs
  exact ⟨hsum ▸ totalBal_nonneg hn, hmax⟩

/-- C7 witness: the bound evaluated on the state reached from `create`
by one first-day claim. -/
theorem claim_supply_invariant_witness :
    0 ≤ (⟨[(1, ⟨10000, 1⟩)], ⟨10000, 1000000, 9, 0, 1⟩, []⟩ : TokenState).stats.supply
    ∧ (⟨[(1, ⟨10000, 1⟩)], ⟨10000, 1000000, 9, 0, 1⟩, []⟩ : TokenState).stats.supply
      ≤ (⟨[(1, ⟨10000, 1⟩)], ⟨10000, 1000000, 9, 0, 1⟩,
          []⟩ : TokenState).stats.max_supply :=
  @claim_supply_invariant (fun b _ => b) (fun b _ hb => ⟨hb, le_refl b⟩) _
    (Reachable.step _ _ (Reachable.init 9 1000000 (by norm_num))
      (Step.claimfor 1 1 _ _ rfl))

theorem not_mem_of_lookupShare_none {tbl : ShareTable} {t : Name}
    (h : lookupShare tbl t = none) : t ∉ tbl.map Prod.fst := by
  induction tbl with
  | nil => simp
  | cons q rest ih =>
    obtain ⟨m, p⟩ := q
    by_cases hm : m = t
    · simp [lookupShare, hm] at h
    · simp only [lookupShare, if_neg hm] at h
      simp only [List.map_cons, List.mem_cons]
      rintro (hc | hc)
      · exact hm hc.symm
      · exact ih h hc

/-- C9: after any successful share-set call, the owner's share table has a
percent sum of at most 100 (a call that would push the sum beyond 100 is
rejected, so no such table ever survives), keeps only positive-percent
rows, and setting a share's percent to 0 removes its row; key uniqueness
is preserved as well. -/
theorem claim_share_invariants {o d : Name} {p : Int} {tbl tbl2 : ShareTable}
    (hnd : (tbl.map Prod.fst).Nodup) (hpos : ∀ q ∈ tbl, 0 < q.2)
    (h : setshare o d p tbl = Except.ok tbl2) :
    pcsum tbl2 ≤ 100
    ∧ (∀ q ∈ tbl2, 0 < q.2)
    ∧ (p = 0 → lookupShare tbl2 d = none)
    ∧ (tbl2.map Prod.fst).Nodup := by
  obtain ⟨⟨hp0, hp100⟩, ho, rfl, hsum⟩ := setshare_ok_elim h
  refine ⟨hsum, ?_, ?_, ?_⟩
  · intro q hq
    unfold setshare_upsert at hq
    split at hq
    next heq =>
      split at hq
      next hppos =>
        rcases List.mem_append.mp hq with hq | hq
        · exact hpos q hq
        · simp at hq
          subst hq
          simp
          omega
      next hppos => exact hpos q hq
    next v heq =>
      split at hq
      next hppos =>
        rcases mem_updShare hq with hq | hq
        · exact hpos q hq
        · rw [hq]
          simp
          omega
      next hppos => exact hpos q (mem_eraseShare hq)
  · intro hp
    subst hp
    unfold setshare_upsert
    split
    next heq =>
      rw [if_neg (by norm_num)]
      exact heq
    next v heq =>
      rw [if_neg (by norm_num)]
      exact lookupShare_eraseShare_self hnd
  · unfold setshare_upsert
    split
    next heq =>
      split
      next hppos =>
        have hd : d ∉ tbl.map Prod.fst := not_mem_of_lookupShare_none heq
        rw [List.map_append]
        simp only [List.map_cons, List.map_nil]
        rw [List.nodup_append]
        exact ⟨hnd, List.nodup_singleton d, by
          intro x hx hx2
          simp at hx2
          subst hx2
          exact hd hx⟩
      next hppos => exact hnd
    next v heq =>
      split
      next hppos =>
        rw [keys_updShare]
        exact hnd
      next hppos => exact hnd.sublist (keys_eraseShare_sublist tbl d)

/-- C9 witness: adding a 40% share to a table holding a 60% share succeeds
and the resulting percent sum is exactly 100. -/
theorem claim_share_invariants_witness : pcsum [(2, 60), (3, 40)] ≤ 100 :=
  (claim_share_invariants (o := 1) (d := 3) (p := 40) (by decide) (by decide)
    (show setshare 1 3 40 [(2, 60)] = Except.ok [(2, 60), (3, 40)] from rfl)).1

end Dailycoin
